import Mathlib

/-!
# RQLite storage-format decoder: a shallow embedding

A verification development of the read-only SQLite-format query engine in
`src/main.rs`.  Rust machine integers are modelled as `Nat` with explicit
`% 2 ^ 64` where the source can wrap; byte buffers are `List Nat`, each
element standing for one `u8` (reads are normalised `% 256`); fallible or
panicking code (out-of-bounds indexing, `read_exact` failures) is modelled
in `Option`, `none` standing for any abnormal outcome.  Text values are kept
as raw byte lists; `String::from_utf8` is modelled as a UTF-8 validity
guard returning the bytes unchanged.
-/

namespace RQLite

/-- Read one byte of a buffer: models `buf[i]` on a `&[u8]` slice.
`none` models the Rust index-out-of-bounds panic. -/
def readByte (buf : List Nat) (i : Nat) : Option Nat :=
  (buf[i]?).map (· % 256)

/-- `u16::from_be_bytes([buf[i], buf[i+1]])`, as used for cell counts and
cell-pointer entries. -/
def readU16 (buf : List Nat) (i : Nat) : Option Nat := do
  let a ← readByte buf i
  let b ← readByte buf (i + 1)
  some (a * 256 + b)

/-- `u32::from_be_bytes` on four consecutive bytes, as used for child page
numbers. -/
def readU32 (buf : List Nat) (i : Nat) : Option Nat := do
  let a ← readByte buf i
  let b ← readByte buf (i + 1)
  let c ← readByte buf (i + 2)
  let d ← readByte buf (i + 3)
  some (((a * 256 + b) * 256 + c) * 256 + d)

/-- The loop body of `read_varint` (src/main.rs lines 141-162).  `i` is the
loop counter, `result` the accumulator; the extra fuel argument only makes
the recursion structural — it is initialised to `9`, which the loop can
never exhaust, because the counter check `8 ≤ i` fires first.
Rust `u64` wrap-around is modelled by `% 2 ^ 64`. -/
def readVarintAux (buf : List Nat) (offset : Nat) : Nat → Nat → Nat → Option (Nat × Nat)
  | 0, _, _ => none
  | fuel + 1, result, i =>
    match readByte buf (offset + i) with
    | none => none
    | some b =>
      if 8 ≤ i then
        some ((((result <<< 8) ||| b) % 2 ^ 64, i + 1))
      else
        let result2 := ((result <<< 7) ||| (b &&& 0x7F)) % 2 ^ 64
        if b &&& 0x80 = 0 then some ((result2, i + 1))
        else readVarintAux buf offset fuel result2 (i + 1)

/-- `read_varint` (src/main.rs lines 141-162): decode a 1-9 byte SQLite
varint at `offset`, returning the value and the number of bytes consumed.
The Rust function returns a bare pair and panics on an out-of-bounds read;
that panic is modelled as `none`. -/
def readVarint (buf : List Nat) (offset : Nat) : Option (Nat × Nat) :=
  readVarintAux buf offset 9 0 0

/-- `serial_type_size` (src/main.rs lines 164-181). -/
def serial_type_size (serial : Nat) : Nat :=
  match serial with
  | 0 => 0
  | 1 => 1
  | 2 => 2
  | 3 => 3
  | 4 => 4
  | 5 => 6
  | 6 => 8
  | 7 => 8
  | 8 => 0
  | 9 => 0
  | 10 => 0
  | 11 => 0
  | s =>
    if 12 ≤ s ∧ s % 2 = 0 then (s - 12) / 2
    else if 13 ≤ s ∧ s % 2 = 1 then (s - 13) / 2
    else 0

/-- The serial-type size catalog exactly as the specification states it
(spec §3): a second definition written from the spec's words, to be
compared with the source-derived `serial_type_size`. -/
def specSerialSize (s : Nat) : Nat :=
  if s = 0 then 0
  else if s = 1 then 1
  else if s = 2 then 2
  else if s = 3 then 3
  else if s = 4 then 4
  else if s = 5 then 6
  else if s = 6 then 8
  else if s = 7 then 8
  else if s = 8 ∨ s = 9 then 0
  else if s = 10 ∨ s = 11 then 0
  else if 12 ≤ s ∧ s % 2 = 0 then (s - 12) / 2
  else (s - 13) / 2

/-- Decimal digit expansion: models Rust `u64::to_string()` as the list of
ASCII digit bytes.  The fuel argument (initialised to `n + 1`, always
sufficient) keeps the recursion structural. -/
def decDigitsAux : Nat → Nat → List Nat
  | 0, _ => []
  | fuel + 1, n =>
    if n < 10 then [48 + n]
    else decDigitsAux fuel (n / 10) ++ [48 + n % 10]

/-- The decimal ASCII rendering of `n`, as produced by `rowid.to_string()`. -/
def decimalDigits (n : Nat) : List Nat :=
  decDigitsAux (n + 1) n

/-- The serial-type reading loop shared by the record decoders
(`while header_pos < header_start + header_size`): read one varint per
serial type.  Fuel is initialised to `endPos - pos`, which suffices since
every varint consumes at least one byte; the defensive `none` on exhausted
fuel is unreachable from that initialisation. -/
def readSerialsGo (page : List Nat) (endPos : Nat) : Nat → Nat → Option (List Nat)
  | 0, pos => if pos < endPos then none else some []
  | fuel + 1, pos =>
    if pos < endPos then do
      let sl ← readVarint page pos
      let rest ← readSerialsGo page endPos fuel (pos + sl.2)
      some (sl.1 :: rest)
    else some []

/-- Read the serial-type varints of a record header occupying byte
positions `[pos, endPos)`. -/
def readSerials (page : List Nat) (pos endPos : Nat) : Option (List Nat) :=
  readSerialsGo page endPos (endPos - pos) pos

/-- `&page[start..start+len]`: models Rust slice indexing, `none` being the
out-of-bounds panic. -/
def sliceBytes (page : List Nat) (start len : Nat) : Option (List Nat) :=
  if start + len ≤ page.length then some (((page.drop start).take len).map (· % 256))
  else none

/-- A UTF-8 continuation byte. -/
def utf8Cont (b : Nat) : Bool := 0x80 ≤ b && b ≤ 0xBF

/-- UTF-8 validity of a byte list, per the standard byte-range table; this
is the acceptance condition of Rust's `String::from_utf8`. -/
def utf8Valid : List Nat → Bool
  | [] => true
  | a :: rest =>
    if a ≤ 0x7F then utf8Valid rest
    else
      match rest with
      | [] => false
      | b :: rest2 =>
        if 0xC2 ≤ a && a ≤ 0xDF then utf8Cont b && utf8Valid rest2
        else
          match rest2 with
          | [] => false
          | c :: rest3 =>
            if a = 0xE0 then (0xA0 ≤ b && b ≤ 0xBF) && utf8Cont c && utf8Valid rest3
            else if (0xE1 ≤ a && a ≤ 0xEC) || a = 0xEE || a = 0xEF then
              utf8Cont b && utf8Cont c && utf8Valid rest3
            else if a = 0xED then (0x80 ≤ b && b ≤ 0x9F) && utf8Cont c && utf8Valid rest3
            else
              match rest3 with
              | [] => false
              | d :: rest4 =>
                if a = 0xF0 then
                  (0x90 ≤ b && b ≤ 0xBF) && utf8Cont c && utf8Cont d && utf8Valid rest4
                else if 0xF1 ≤ a && a ≤ 0xF3 then
                  utf8Cont b && utf8Cont c && utf8Cont d && utf8Valid rest4
                else if a = 0xF4 then
                  (0x80 ≤ b && b ≤ 0x8F) && utf8Cont c && utf8Cont d && utf8Valid rest4
                else false

/-- `String::from_utf8(bytes.to_vec())`: strings are modelled as their raw
bytes, so a successful conversion returns the bytes unchanged; failure
models the `InvalidUtf8` error path. -/
def stringFromUtf8 (bs : List Nat) : Option (List Nat) :=
  if utf8Valid bs then some bs else none

/-- The column-scanning loop of `extract_column_from_table_cell`
(src/main.rs lines 961-976): walk the serial types with running column
index `idx` and body position `bodyPos`; at the requested column, a
zero-sized value yields the decimal rowid at column 0 and SQL NULL (`none`)
elsewhere, and a sized value is sliced from the record body. -/
def extractLoop (page : List Nat) (rowid colIndex : Nat) :
    List Nat → Nat → Nat → Option (Option (List Nat))
  | [], _, _ => some none
  | st :: rest, idx, bodyPos =>
    let size := serial_type_size st
    if idx = colIndex then
      if size = 0 then
        if colIndex = 0 then some (some (decimalDigits rowid)) else some none
      else do
        let bytes ← sliceBytes page bodyPos size
        let s ← stringFromUtf8 bytes
        some (some s)
    else extractLoop page rowid colIndex rest (idx + 1) (bodyPos + size)

/-- `extract_column_from_table_cell` (src/main.rs lines 936-979): parse a
table-leaf cell (payload-size varint, rowid varint, record header) and
extract the value of column `colIndex`.  The outer `Option` is the
`Result`; the inner `Option` the Rust `Option<String>`. -/
def extract_column_from_table_cell (page : List Nat) (cellOff colIndex : Nat) :
    Option (Option (List Nat)) := do
  let pl1 ← readVarint page cellOff
  let rl2 ← readVarint page (cellOff + pl1.2)
  let headerStart := cellOff + pl1.2 + rl2.2
  let hl3 ← readVarint page headerStart
  let serials ← readSerials page (headerStart + hl3.2) (headerStart + hl3.1)
  if colIndex < serials.length then
    extractLoop page rl2.1 colIndex serials 0 (headerStart + hl3.1)
  else
    some none

/-- `extract_index_key_and_rowid_from_cell`'s serial loop (src/main.rs
lines 889-903): the first column is the key (a UTF-8 string), the last
column the rowid, decoded as a big-endian unsigned integer on a wrapping
`u64`. -/
def indexCellLoop (page : List Nat) (total : Nat) :
    List Nat → Nat → Nat → List Nat → Nat → Option (List Nat × Nat)
  | [], _, _, key, rowid => some ((key, rowid))
  | st :: rest, idx, bodyPos, key, rowid =>
    let size := serial_type_size st
    if idx = 0 then do
      let bytes ← sliceBytes page bodyPos size
      let k ← stringFromUtf8 bytes
      indexCellLoop page total rest (idx + 1) (bodyPos + size) k rowid
    else if idx = total - 1 then do
      let bytes ← sliceBytes page bodyPos size
      indexCellLoop page total rest (idx + 1) (bodyPos + size) key
        (bytes.foldl (fun v b => ((v <<< 8) ||| b) % 2 ^ 64) 0)
    else indexCellLoop page total rest (idx + 1) (bodyPos + size) key rowid

/-- `extract_index_key_and_rowid_from_cell` (src/main.rs lines 866-906):
parse an index-leaf cell into its first-column key bytes and its trailing
rowid. -/
def extract_index_key_and_rowid_from_cell (page : List Nat) (cellOff : Nat) :
    Option (List Nat × Nat) := do
  let pl1 ← readVarint page cellOff
  let recordStart := cellOff + pl1.2
  let hl2 ← readVarint page recordStart
  let serials ← readSerials page (recordStart + hl2.2) (recordStart + hl2.1)
  indexCellLoop page serials.length serials 0 (recordStart + hl2.1) [] 0

/-- The database seen through the pager: `pages n` returns the
`page_size`-byte buffer of 1-based page `n`, or `none` for the `IoError`
and `ShortRead` failures of `read_page`. -/
structure Db where
  pages : Nat → Option (List Nat)

/-- B-tree header offset: 100 on page 1 (the file header precedes it),
0 elsewhere. -/
def headerOff (pageNo : Nat) : Nat := if pageNo = 1 then 100 else 0

/-- A table-leaf cell as handed to a visitor by the walker of spec §4.7:
the page buffer it lives on, its cell offset, and its rowid. -/
structure TableCell where
  page : List Nat
  off : Nat
  rowid : Nat
deriving DecidableEq, Repr

instance : Inhabited TableCell := ⟨⟨[], 0, 0⟩⟩

/-- Effectful map over a list in the `Option` monad, written as an explicit
recursion (the `for`-loops of the Rust scans, with `?` propagation). -/
def mapOpt (f : α → Option β) : List α → Option (List β)
  | [] => some []
  | a :: as => do
    let b ← f a
    let bs ← mapOpt f as
    some (b :: bs)

/-- Per-leaf-cell reads of the generic walker: cell pointer, payload-size
varint, rowid varint — exactly the reads every concrete scan performs
before its per-cell work. -/
def leafCell (page : List Nat) (ho i : Nat) : Option TableCell := do
  let coff ← readU16 page (ho + 8 + 2 * i)
  let pl1 ← readVarint page coff
  let rl2 ← readVarint page (coff + pl1.2)
  some ⟨page, coff, rl2.1⟩

/-- Interior-cell reads shared by every table scan: cell pointer, then the
4-byte left-child page number at the cell offset. -/
def interiorChild (page : List Nat) (ho i : Nat) : Option Nat := do
  let coff ← readU16 page (ho + 12 + 2 * i)
  readU32 page coff

/-- The generic table-B-tree walker of spec §4.7: depth-first left-to-right
traversal from `pageNo`, collecting every table-leaf cell as a
`TableCell`.  It performs exactly the page fetches, header reads,
cell-pointer reads, and leading varint reads common to the concrete
visitors; `fuel` bounds the recursion depth (`none` on exhaustion models
the unbounded Rust recursion failing to terminate). -/
def scan_table_btree_cells (db : Db) : Nat → Nat → Option (List TableCell)
  | 0, _ => none
  | fuel + 1, pageNo => do
    let page ← db.pages pageNo
    let ho := headerOff pageNo
    let ptype ← readByte page ho
    let cc ← readU16 page (ho + 3)
    if ptype = 0x0D then
      mapOpt (fun i => leafCell page ho i) (List.range cc)
    else if ptype = 0x05 then do
      let rc ← readU32 page (ho + 8)
      let childLists ← mapOpt (fun i => do
        let child ← interiorChild page ho i
        scan_table_btree_cells db fuel child) (List.range cc)
      let rightCells ← scan_table_btree_cells db fuel rc
      some (childLists.flatten ++ rightCells)
    else some []

/-- `scan_table_btree_count` (src/main.rs lines 232-273): the Counter
visitor.  A table leaf contributes its `cell_count` with no per-cell work;
a table interior recurses into each cell's left child and then the right
child; any other page type contributes zero. -/
def scan_table_btree_count (db : Db) : Nat → Nat → Option Nat
  | 0, _ => none
  | fuel + 1, pageNo => do
    let page ← db.pages pageNo
    let ho := headerOff pageNo
    let ptype ← readByte page ho
    let cc ← readU16 page (ho + 3)
    if ptype = 0x0D then
      some cc
    else if ptype = 0x05 then do
      let rc ← readU32 page (ho + 8)
      let childCounts ← mapOpt (fun i => do
        let child ← interiorChild page ho i
        scan_table_btree_count db fuel child) (List.range cc)
      let rcount ← scan_table_btree_count db fuel rc
      some (childCounts.sum + rcount)
    else some 0

/-- The projection a scan performs on one table-leaf cell: extract every
requested column index, `unwrap_or_default()` turning SQL NULL into the
empty string. -/
def projectCell (page : List Nat) (cellOff : Nat) (idxs : List Nat) :
    Option (List (List Nat)) :=
  (mapOpt (fun ix => extract_column_from_table_cell page cellOff ix) idxs).map
    (fun vs => vs.map (fun v => v.getD []))

/-- `projectCell` on a walker cell. -/
def projRowOfCell (idxs : List Nat) (c : TableCell) : Option (List (List Nat)) :=
  projectCell c.page c.off idxs

/-- `scan_table_btree_all_columns` (src/main.rs lines 680-738): the
Projector visitor, emitting one projected row per table-leaf cell in
traversal order. -/
def scan_table_btree_all_columns (db : Db) : Nat → Nat → List Nat → Option (List (List (List Nat)))
  | 0, _, _ => none
  | fuel + 1, pageNo, idxs => do
    let page ← db.pages pageNo
    let ho := headerOff pageNo
    let ptype ← readByte page ho
    let cc ← readU16 page (ho + 3)
    if ptype = 0x0D then
      mapOpt (fun i => do
        let coff ← readU16 page (ho + 8 + 2 * i)
        projectCell page coff idxs) (List.range cc)
    else if ptype = 0x05 then do
      let rc ← readU32 page (ho + 8)
      let childRows ← mapOpt (fun i => do
        let child ← interiorChild page ho i
        scan_table_btree_all_columns db fuel child idxs) (List.range cc)
      let rightRows ← scan_table_btree_all_columns db fuel rc idxs
      some (childRows.flatten ++ rightRows)
    else some []

/-- The per-cell work of the Filter-projector at a leaf: evaluate the
equality predicate on the where-column, and project the requested columns
only on a match (`if let Some(ref w) = where_v` skips SQL NULL). -/
def whereCellRows (page : List Nat) (coff : Nat) (idxs : List Nat)
    (whereIdx : Nat) (whereVal : List Nat) : Option (List (List (List Nat))) := do
  let wv ← extract_column_from_table_cell page coff whereIdx
  match wv with
  | some w =>
    if w = whereVal then do
      let row ← projectCell page coff idxs
      some [row]
    else some []
  | none => some []

/-- `scan_table_btree_where` (src/main.rs lines 607-678): the
Filter-projector visitor — a full scan emitting the projection of exactly
the leaf cells whose where-column equals `whereVal`. -/
def scan_table_btree_where (db : Db) :
    Nat → Nat → List Nat → Nat → List Nat → Option (List (List (List Nat)))
  | 0, _, _, _, _ => none
  | fuel + 1, pageNo, idxs, whereIdx, whereVal => do
    let page ← db.pages pageNo
    let ho := headerOff pageNo
    let ptype ← readByte page ho
    let cc ← readU16 page (ho + 3)
    if ptype = 0x0D then do
      let rowLists ← mapOpt (fun i => do
        let coff ← readU16 page (ho + 8 + 2 * i)
        whereCellRows page coff idxs whereIdx whereVal) (List.range cc)
      some rowLists.flatten
    else if ptype = 0x05 then do
      let rc ← readU32 page (ho + 8)
      let childRows ← mapOpt (fun i => do
        let child ← interiorChild page ho i
        scan_table_btree_where db fuel child idxs whereIdx whereVal) (List.range cc)
      let rightRows ← scan_table_btree_where db fuel rc idxs whereIdx whereVal
      some (childRows.flatten ++ rightRows)
    else some []

/-- The leaf search loop of `scan_table_btree_for_rowid` (src/main.rs lines
757-774): scan the cell-pointer array in order, reading each cell's
payload-size and rowid varints; on a rowid match, project and return
immediately. -/
def searchLeafCells (page : List Nat) (r : Nat) (idxs : List Nat) (ho : Nat) :
    List Nat → Option (Option (List (List Nat)))
  | [] => some none
  | i :: is => do
    let coff ← readU16 page (ho + 8 + 2 * i)
    let pl1 ← readVarint page coff
    let rl2 ← readVarint page (coff + pl1.2)
    if rl2.1 = r then do
      let row ← projectCell page coff idxs
      some (some row)
    else searchLeafCells page r idxs ho is

/-- The interior loop of `scan_table_btree_for_rowid` (src/main.rs lines
782-797): descend into each cell's left child in order, returning as soon
as a child reports a hit. -/
def searchChildren (f : Nat → Option (Option (List (List Nat)))) (page : List Nat) (ho : Nat) :
    List Nat → Option (Option (List (List Nat)))
  | [] => some none
  | i :: is => do
    let child ← interiorChild page ho i
    let res ← f child
    match res with
    | some vals => some (some vals)
    | none => searchChildren f page ho is

/-- `scan_table_btree_for_rowid` (src/main.rs lines 740-807): pointed
lookup of `r`, returning `some (some row)` on a hit, `some none` when `r`
is absent, `none` on a decoding failure. -/
def scan_table_btree_for_rowid (db : Db) : Nat → Nat → Nat → List Nat → Option (Option (List (List Nat)))
  | 0, _, _, _ => none
  | fuel + 1, pageNo, r, idxs => do
    let page ← db.pages pageNo
    let ho := headerOff pageNo
    let ptype ← readByte page ho
    let cc ← readU16 page (ho + 3)
    if ptype = 0x0D then
      searchLeafCells page r idxs ho (List.range cc)
    else if ptype = 0x05 then do
      let rc ← readU32 page (ho + 8)
      let found ← searchChildren
        (fun child => scan_table_btree_for_rowid db fuel child r idxs) page ho (List.range cc)
      match found with
      | some vals => some (some vals)
      | none => scan_table_btree_for_rowid db fuel rc r idxs
    else some none

/-- `scan_index_btree_for_value` (src/main.rs lines 809-864): walk an index
B-tree, collecting the rowid of every index-leaf cell whose key equals
`target`.  Index-interior pages (`0x02`) contribute only their children;
any other page type contributes nothing. -/
def scan_index_btree_for_value (db : Db) : Nat → Nat → List Nat → Option (List Nat)
  | 0, _, _ => none
  | fuel + 1, pageNo, target => do
    let page ← db.pages pageNo
    let ho := headerOff pageNo
    let ptype ← readByte page ho
    let cc ← readU16 page (ho + 3)
    if ptype = 0x0A then do
      let ridLists ← mapOpt (fun i => do
        let coff ← readU16 page (ho + 8 + 2 * i)
        let kr ← extract_index_key_and_rowid_from_cell page coff
        some (if kr.1 = target then [kr.2] else [])) (List.range cc)
      some ridLists.flatten
    else if ptype = 0x02 then do
      let rc ← readU32 page (ho + 8)
      let childRids ← mapOpt (fun i => do
        let child ← interiorChild page ho i
        scan_index_btree_for_value db fuel child target) (List.range cc)
      let rightRids ← scan_index_btree_for_value db fuel rc target
      some (childRids.flatten ++ rightRids)
    else some []

/-- The index-accelerated WHERE plan (src/main.rs lines 582-593): probe the
index B-tree for the candidate rowids, then perform a pointed table lookup
per rowid, keeping the hits. -/
def index_plan_rows (db : Db) (fuel troot iroot : Nat) (idxs : List Nat)
    (whereVal : List Nat) : Option (List (List (List Nat))) := do
  let rids ← scan_index_btree_for_value db fuel iroot whereVal
  let results ← mapOpt (fun rid => scan_table_btree_for_rowid db fuel troot rid idxs) rids
  some (results.reduceOption)

/-! ## The varint codec: proof infrastructure -/

/-- A list-consuming restatement of `readVarintAux`: the same loop, reading
successive bytes from the front of a list rather than through
`buf[offset + i]`.  Used as a proof vehicle via `readVarintAux_eq_rvList`. -/
def rvList : Nat → List Nat → Nat → Nat → Option (Nat × Nat)
  | 0, _, _, _ => none
  | fuel + 1, bs, result, i =>
    match bs with
    | [] => none
    | b :: rest =>
      if 8 ≤ i then
        some ((((result <<< 8) ||| b % 256) % 2 ^ 64, i + 1))
      else
        let result2 := ((result <<< 7) ||| (b % 256 &&& 0x7F)) % 2 ^ 64
        if b % 256 &&& 0x80 = 0 then some ((result2, i + 1))
        else rvList fuel rest result2 (i + 1)

theorem readVarintAux_eq_rvList (buf : List Nat) (offset : Nat) :
    ∀ (fuel result i : Nat),
      readVarintAux buf offset fuel result i = rvList fuel (buf.drop (offset + i)) result i := by
  intro fuel
  induction fuel with
  | zero => intro result i; rfl
  | succ fuel ih =>
    intro result i
    cases hb : buf[offset + i]? with
    | none =>
      have hlen : buf.length ≤ offset + i := by
        by_contra hc
        rw [List.getElem?_eq_getElem (by omega)] at hb
        exact Option.noConfusion hb
      have hdrop : buf.drop (offset + i) = [] := List.drop_eq_nil_iff.2 hlen
      simp [readVarintAux, rvList, readByte, hb, hdrop]
    | some b =>
      have hlt : offset + i < buf.length := by
        by_contra hc
        rw [List.getElem?_eq_none (by omega)] at hb
        exact Option.noConfusion hb
      have hbv : buf[offset + i] = b := by
        have h2 := List.getElem?_eq_getElem hlt
        rw [hb] at h2
        exact (Option.some_inj.1 h2).symm
      have hdrop : buf.drop (offset + i) = b :: buf.drop (offset + i + 1) := by
        rw [List.drop_eq_getElem_cons hlt, hbv]
      have hadd : offset + (i + 1) = offset + i + 1 := by omega
      rw [hdrop]
      simp only [readVarintAux, rvList, readByte, hb, Option.map_some']
      by_cases h8 : 8 ≤ i
      · simp [h8]
      · simp only [h8, if_false]
        by_cases hcont : b % 256 &&& 0x80 = 0
        · simp [hcont]
        · simp only [hcont, if_false]
          rw [ih, hadd]

/-- Big-endian base-128 value of a digit list. -/
def digitsVal (ds : List Nat) : Nat :=
  ds.foldl (fun a d => a * 128 + d) 0

/-- The minimal big-endian 7-bit digit expansion of `n` (at least one
digit).  This is the digit layer of the spec's varint encoding. -/
def encode7 (n : Nat) : List Nat :=
  if n < 128 then [n] else encode7 (n / 128) ++ [n % 128]
termination_by n
decreasing_by exact Nat.div_lt_self (by omega) (by omega)

/-- Set the continuation bit on every digit except the last. -/
def markCont : List Nat → List Nat
  | [] => []
  | [d] => [d]
  | d :: e :: rest => (d + 128) :: markCont (e :: rest)

/-- Left-pad a digit list with zeros to exactly eight digits. -/
def pad8 (ds : List Nat) : List Nat :=
  List.replicate (8 - ds.length) 0 ++ ds

/-- `Modelled from the spec:` the SQLite varint encoding of spec §4.1 — the
source is a read-only engine with no encoder, so the encoder is written
from the spec's words: values below `2 ^ 56` are the minimal big-endian
7-bit digit string with continuation bits on all but the last byte; larger
values take eight continuation bytes holding the top 56 bits followed by a
ninth byte holding the low 8 bits. -/
def encodeVarint (n : Nat) : List Nat :=
  if n < 2 ^ 56 then markCont (encode7 n)
  else ((pad8 (encode7 (n / 256))).map (· + 128)) ++ [n % 256]

theorem and_bit7_of_ge (b : Nat) (h1 : 128 ≤ b) (h2 : b < 256) : b &&& 128 = 0x80 := by
  have ht : b.testBit 7 = true := by
    rw [Nat.testBit_to_div_mod]
    have h128 : (2 : Nat) ^ 7 = 128 := by norm_num
    rw [h128]
    simp only [decide_eq_true_eq]
    omega
  have h := Nat.and_two_pow b 7
  rw [ht] at h
  norm_num at h
  exact h

theorem and_bit7_of_lt (b : Nat) (h : b < 128) : b &&& 128 = 0 := by
  have ht : b.testBit 7 = false := by
    rw [Nat.testBit_to_div_mod]
    have h128 : (2 : Nat) ^ 7 = 128 := by norm_num
    rw [h128]
    simp only [decide_eq_false_iff_not]
    omega
  have h := Nat.and_two_pow b 7
  rw [ht] at h
  norm_num at h
  exact h

theorem and_low7 (b : Nat) : b &&& 0x7F = b % 128 := by
  have := Nat.and_pow_two_sub_one_eq_mod b 7
  norm_num at this
  exact this

theorem shl_or_add (a b k : Nat) (h : b < 2 ^ k) : (a <<< k) ||| b = a * 2 ^ k + b := by
  rw [Nat.shiftLeft_eq, Nat.mul_comm, ← Nat.mul_add_lt_is_or h]

theorem markCont_length : ∀ ds : List Nat, (markCont ds).length = ds.length
  | [] => rfl
  | [_] => rfl
  | _ :: e :: rest => by
    show (markCont (e :: rest)).length + 1 = (e :: rest).length + 1
    rw [markCont_length (e :: rest)]

theorem digitsVal_from (ds : List Nat) :
    ∀ a : Nat, ds.foldl (fun x d => x * 128 + d) a = a * 128 ^ ds.length + digitsVal ds := by
  induction ds with
  | nil => intro a; simp [digitsVal]
  | cons d rest ih =>
    intro a
    show rest.foldl (fun x d => x * 128 + d) (a * 128 + d) = _
    rw [ih (a * 128 + d)]
    have hd : digitsVal (d :: rest) = d * 128 ^ rest.length + digitsVal rest := by
      show rest.foldl (fun x d => x * 128 + d) (0 * 128 + d) = _
      rw [ih (0 * 128 + d)]
      ring_nf
    rw [hd]
    simp [List.length_cons]
    ring

theorem digitsVal_cons (d : Nat) (rest : List Nat) :
    digitsVal (d :: rest) = d * 128 ^ rest.length + digitsVal rest := by
  show rest.foldl (fun x d => x * 128 + d) (0 * 128 + d) = _
  rw [digitsVal_from rest (0 * 128 + d)]
  ring_nf

theorem digitsVal_append_singleton (ds : List Nat) (d : Nat) :
    digitsVal (ds ++ [d]) = digitsVal ds * 128 + d := by
  unfold digitsVal
  rw [List.foldl_append]
  rfl

theorem encode7_ne_nil (n : Nat) : encode7 n ≠ [] := by
  rw [encode7]
  split
  · exact List.cons_ne_nil _ _
  · exact List.append_ne_nil_of_right_ne_nil _ (List.cons_ne_nil _ _)

theorem encode7_digits_lt (n : Nat) : ∀ d ∈ encode7 n, d < 128 := by
  induction n using Nat.strong_induction_on with
  | _ n ih =>
    rw [encode7]
    split
    · intro d hd
      rw [List.mem_singleton] at hd
      omega
    · intro d hd
      rw [List.mem_append, List.mem_singleton] at hd
      rcases hd with h | h
      · exact ih (n / 128) (Nat.div_lt_self (by omega) (by omega)) d h
      · omega

theorem digitsVal_encode7 (n : Nat) : digitsVal (encode7 n) = n := by
  induction n using Nat.strong_induction_on with
  | _ n ih =>
    rw [encode7]
    split
    · show digitsVal [n] = n
      simp [digitsVal]
    · rw [digitsVal_append_singleton,
        ih (n / 128) (Nat.div_lt_self (by omega) (by omega))]
      omega

theorem encode7_length_le : ∀ (k n : Nat), 1 ≤ k → n < 128 ^ k → (encode7 n).length ≤ k := by
  intro k
  induction k with
  | zero => intro n h; omega
  | succ k ih =>
    intro n _ hn
    rw [encode7]
    split
    · simp
    · rename_i hge
      have hk : 1 ≤ k := by
        by_contra hc
        have : k = 0 := by omega
        subst this
        norm_num at hn
        omega
      have hdiv : n / 128 < 128 ^ k := by
        rw [Nat.div_lt_iff_lt_mul (by norm_num)]
        calc n < 128 ^ (k + 1) := hn
        _ = 128 ^ k * 128 := by ring
      have := ih (n / 128) hk hdiv
      rw [List.length_append]
      simp only [List.length_singleton]
      omega

theorem foldl_replicate_zero : ∀ z : Nat,
    (List.replicate z 0).foldl (fun a d => a * 128 + d) 0 = 0 := by
  intro z
  induction z with
  | zero => rfl
  | succ z ih =>
    rw [List.replicate_succ]
    show (List.replicate z 0).foldl (fun a d => a * 128 + d) (0 * 128 + 0) = 0
    simpa using ih

theorem digitsVal_pad8 (ds : List Nat) : digitsVal (pad8 ds) = digitsVal ds := by
  unfold pad8 digitsVal
  rw [List.foldl_append, foldl_replicate_zero]

theorem pad8_length (ds : List Nat) (h : ds.length ≤ 8) : (pad8 ds).length = 8 := by
  unfold pad8
  rw [List.length_append, List.length_replicate]
  omega

theorem pad8_digits_lt (ds : List Nat) (h : ∀ d ∈ ds, d < 128) :
    ∀ d ∈ pad8 ds, d < 128 := by
  intro d hd
  unfold pad8 at hd
  rw [List.mem_append] at hd
  rcases hd with h1 | h1
  · have := List.eq_of_mem_replicate h1
    omega
  · exact h d h1

/-- Decoding the continuation-marked digit string `ds` (all digits below
128, nonempty, fitting before the ninth byte) consumes exactly `ds` and
accumulates its base-128 value. -/
theorem rvList_markCont (rest2 : List Nat) :
    ∀ (ds : List Nat) (fuel acc i : Nat), ds ≠ [] → (∀ d ∈ ds, d < 128) →
      i + ds.length ≤ 8 → acc < 2 ^ (7 * i) → ds.length ≤ fuel →
      rvList fuel (markCont ds ++ rest2) acc i =
        some ((acc * 128 ^ ds.length + digitsVal ds, i + ds.length)) := by
  intro ds
  induction ds with
  | nil => intro fuel acc i h; exact absurd rfl h
  | cons d rest ih =>
    intro fuel acc i _ hlt hle hacc hfuel
    have hd : d < 128 := hlt d (List.mem_cons_self _ _)
    have hacc2 : acc * 128 + d < 2 ^ (7 * (i + 1)) := by
      have h1 : acc + 1 ≤ 2 ^ (7 * i) := hacc
      have h2 : (acc + 1) * 128 ≤ 2 ^ (7 * i) * 128 := Nat.mul_le_mul_right _ h1
      have h3 : 2 ^ (7 * i) * 128 = 2 ^ (7 * (i + 1)) := by
        rw [show 7 * (i + 1) = 7 * i + 7 by ring, pow_add]
        norm_num
      omega
    have hi8 : ¬ 8 ≤ i := by
      have := List.length_pos_of_ne_nil (l := d :: rest) (by simp)
      simp only [List.length_cons] at hle
      omega
    obtain ⟨fuel2, rfl⟩ : ∃ f2, fuel = f2 + 1 := by
      cases fuel with
      | zero => simp at hfuel
      | succ f => exact ⟨f, rfl⟩
    have hmod : d % 256 = d := Nat.mod_eq_of_lt (by omega)
    cases rest with
    | nil =>
      show rvList (fuel2 + 1) (d :: rest2) acc i = _
      simp only [rvList, hi8, if_false]
      rw [hmod, and_low7, Nat.mod_eq_of_lt (show d < 128 by omega),
        and_bit7_of_lt d hd, if_pos rfl]
      rw [shl_or_add acc d 7 (by norm_num; omega)]
      have hsmall : acc * 2 ^ 7 + d < 2 ^ 64 := by
        have : 7 * (i + 1) ≤ 56 := by omega
        have h4 : (2 : Nat) ^ (7 * (i + 1)) ≤ 2 ^ 56 := Nat.pow_le_pow_right (by norm_num) this
        have h5 : (2 : Nat) ^ 56 < 2 ^ 64 := by norm_num
        have := hacc2
        norm_num at this ⊢
        omega
      rw [Nat.mod_eq_of_lt hsmall]
      simp [digitsVal]
    | cons e rest3 =>
      show rvList (fuel2 + 1) ((d + 128) :: (markCont (e :: rest3) ++ rest2)) acc i = _
      simp only [rvList, hi8, if_false]
      have hm : (d + 128) % 256 = d + 128 := Nat.mod_eq_of_lt (by omega)
      rw [hm, and_low7, and_bit7_of_ge (d + 128) (by omega) (by omega)]
      rw [if_neg (by norm_num)]
      have hml : (d + 128) % 128 = d := by omega
      rw [hml]
      rw [shl_or_add acc d 7 (by norm_num; omega)]
      have hsmall : acc * 2 ^ 7 + d < 2 ^ 64 := by
        have h6 : 7 * (i + 1) ≤ 56 := by
          simp only [List.length_cons] at hle
          omega
        have h4 : (2 : Nat) ^ (7 * (i + 1)) ≤ 2 ^ 56 := Nat.pow_le_pow_right (by norm_num) h6
        have h5 : (2 : Nat) ^ 56 < 2 ^ 64 := by norm_num
        have := hacc2
        norm_num at this ⊢
        omega
      rw [Nat.mod_eq_of_lt hsmall]
      have hrec := ih fuel2 (acc * 2 ^ 7 + d) (i + 1) (by simp)
        (fun x hx => hlt x (List.mem_cons_of_mem _ hx))
        (by simp only [List.length_cons] at hle ⊢; omega)
        (by norm_num at hacc2 ⊢; omega)
        (by simp only [List.length_cons] at hfuel ⊢; omega)
      rw [hrec]
      have hval : (acc * 2 ^ 7 + d) * 128 ^ (e :: rest3).length + digitsVal (e :: rest3)
          = acc * 128 ^ (d :: e :: rest3).length + digitsVal (d :: e :: rest3) := by
        rw [digitsVal_cons d (e :: rest3)]
        simp only [List.length_cons]
        ring
      rw [hval]
      have hcount : i + 1 + (e :: rest3).length = i + (d :: e :: rest3).length := by
        simp only [List.length_cons]
        omega
      rw [hcount]

/-- Decoding eight continuation-marked digits followed by one full byte:
the ninth byte contributes all eight bits. -/
theorem rvList_nine (b9 : Nat) :
    ∀ (ds : List Nat) (fuel acc i : Nat), (∀ d ∈ ds, d < 128) →
      i + ds.length = 8 → acc < 2 ^ (7 * i) → ds.length + 1 ≤ fuel →
      rvList fuel (ds.map (· + 128) ++ [b9]) acc i =
        some (((acc * 128 ^ ds.length + digitsVal ds) * 256 + b9 % 256) % 2 ^ 64, 9) := by
  intro ds
  induction ds with
  | nil =>
    intro fuel acc i _ hi hacc hfuel
    obtain ⟨fuel2, rfl⟩ : ∃ f2, fuel = f2 + 1 := by
      cases fuel with
      | zero => omega
      | succ f => exact ⟨f, rfl⟩
    simp only [List.length_nil, Nat.add_zero] at hi
    subst hi
    show rvList (fuel2 + 1) (b9 :: []) acc 8 = _
    simp only [rvList, if_pos (le_refl 8)]
    rw [shl_or_add acc (b9 % 256) 8 (by norm_num; omega)]
    simp [digitsVal]
  | cons d rest ih =>
    intro fuel acc i hlt hi hacc hfuel
    have hd : d < 128 := hlt d (List.mem_cons_self _ _)
    obtain ⟨fuel2, rfl⟩ : ∃ f2, fuel = f2 + 1 := by
      cases fuel with
      | zero => simp at hfuel
      | succ f => exact ⟨f, rfl⟩
    have hi8 : ¬ 8 ≤ i := by
      simp only [List.length_cons] at hi
      omega
    show rvList (fuel2 + 1) ((d + 128) :: (rest.map (· + 128) ++ [b9])) acc i = _
    simp only [rvList, hi8, if_false]
    have hm : (d + 128) % 256 = d + 128 := Nat.mod_eq_of_lt (by omega)
    rw [hm, and_low7, and_bit7_of_ge (d + 128) (by omega) (by omega)]
    rw [if_neg (by norm_num)]
    have hml : (d + 128) % 128 = d := by omega
    rw [hml]
    rw [shl_or_add acc d 7 (by norm_num; omega)]
    have hacc2 : acc * 2 ^ 7 + d < 2 ^ (7 * (i + 1)) := by
      have h1 : acc + 1 ≤ 2 ^ (7 * i) := hacc
      have h2 : (acc + 1) * 128 ≤ 2 ^ (7 * i) * 128 := Nat.mul_le_mul_right _ h1
      have h3 : 2 ^ (7 * i) * 128 = 2 ^ (7 * (i + 1)) := by
        rw [show 7 * (i + 1) = 7 * i + 7 by ring, pow_add]
        norm_num
      norm_num at h2 ⊢
      omega
    have hsmall : acc * 2 ^ 7 + d < 2 ^ 64 := by
      have h6 : 7 * (i + 1) ≤ 56 := by
        simp only [List.length_cons] at hi
        omega
      have h4 : (2 : Nat) ^ (7 * (i + 1)) ≤ 2 ^ 56 := Nat.pow_le_pow_right (by norm_num) h6
      have h5 : (2 : Nat) ^ 56 < 2 ^ 64 := by norm_num
      omega
    rw [Nat.mod_eq_of_lt hsmall]
    have hrec := ih fuel2 (acc * 2 ^ 7 + d) (i + 1)
      (fun x hx => hlt x (List.mem_cons_of_mem _ hx))
      (by simp only [List.length_cons] at hi ⊢; omega)
      hacc2
      (by simp only [List.length_cons] at hfuel ⊢; omega)
    rw [hrec]
    have hval : (acc * 2 ^ 7 + d) * 128 ^ rest.length + digitsVal rest
        = acc * 128 ^ (d :: rest).length + digitsVal (d :: rest) := by
      rw [digitsVal_cons d rest]
      simp only [List.length_cons]
      ring
    rw [hval]

/-- C5: the SQLite varint round-trip — encoding any `n` below `2 ^ 64` per
the spec's description and decoding it with the source's `read_varint`
recovers `n` and consumes exactly the encoding's length. -/
theorem varint_roundtrip (n : Nat) (h : n < 2 ^ 64) :
    readVarint (encodeVarint n) 0 = some ((n, (encodeVarint n).length)) := by
  rw [readVarint, readVarintAux_eq_rvList]
  simp only [Nat.add_zero, List.drop_zero]
  by_cases h56 : n < 2 ^ 56
  · rw [encodeVarint, if_pos h56]
    have hne := encode7_ne_nil n
    have hlt := encode7_digits_lt n
    have hlen : (encode7 n).length ≤ 8 := by
      apply encode7_length_le 8 n (by norm_num)
      norm_num at h56 ⊢
      omega
    have hdec := rvList_markCont [] (encode7 n) 9 0 0 hne hlt (by omega) (by norm_num) (by omega)
    rw [List.append_nil] at hdec
    rw [hdec, digitsVal_encode7, markCont_length]
    norm_num
  · rw [encodeVarint, if_neg h56]
    have hdiv : n / 256 < 2 ^ 56 := by omega
    have hlen8 : (encode7 (n / 256)).length ≤ 8 := by
      apply encode7_length_le 8 _ (by norm_num)
      norm_num at hdiv ⊢
      omega
    have hdlt : ∀ d ∈ pad8 (encode7 (n / 256)), d < 128 :=
      pad8_digits_lt _ (encode7_digits_lt _)
    have hdlen : (pad8 (encode7 (n / 256))).length = 8 := pad8_length _ hlen8
    have hdec := rvList_nine (n % 256) (pad8 (encode7 (n / 256))) 9 0 0 hdlt
      (by omega) (by norm_num) (by omega)
    rw [hdec, digitsVal_pad8, digitsVal_encode7]
    have hv : (0 * 128 ^ (pad8 (encode7 (n / 256))).length + n / 256) * 256 + n % 256 % 256
        = n := by omega
    rw [hv, Nat.mod_eq_of_lt h]
    rw [List.length_append, List.length_map, hdlen]
    simp

/-- C5 witness: the round-trip at `n = 300`. -/
theorem varint_roundtrip_witness :
    readVarint (encodeVarint 300) 0 = some ((300, (encodeVarint 300).length)) :=
  varint_roundtrip 300 (by norm_num)

/-- The varint loop is insensitive to bytes at positions `9 - i` and
beyond: only the first `9 - i` remaining bytes can be inspected. -/
theorem rvList_local : ∀ (fuel : Nat) (bs bs2 : List Nat) (acc i : Nat), i ≤ 8 →
    bs.take (9 - i) = bs2.take (9 - i) →
    rvList fuel bs acc i = rvList fuel bs2 acc i := by
  intro fuel
  induction fuel with
  | zero => intro bs bs2 acc i _ _; rfl
  | succ fuel ih =>
    intro bs bs2 acc i hi htake
    have h9 : 1 ≤ 9 - i := by omega
    cases bs with
    | nil =>
      cases bs2 with
      | nil => rfl
      | cons b2 rest2 =>
        rw [List.take_nil] at htake
        rw [List.take_cons (by omega)] at htake
        exact absurd htake.symm (List.cons_ne_nil _ _)
    | cons b rest =>
      cases bs2 with
      | nil =>
        rw [List.take_nil] at htake
        rw [List.take_cons (by omega)] at htake
        exact absurd htake (List.cons_ne_nil _ _)
      | cons b2 rest2 =>
        rw [List.take_cons (by omega), List.take_cons (by omega)] at htake
        rw [List.cons.injEq] at htake
        obtain ⟨hb, hrest⟩ := htake
        subst hb
        by_cases h8 : 8 ≤ i
        · simp [rvList, h8]
        · simp only [rvList, h8, if_false]
          by_cases hcont : b % 256 &&& 0x80 = 0
          · simp [hcont]
          · simp only [hcont, if_false]
            apply ih rest rest2 _ (i + 1) (by omega)
            have : 9 - (i + 1) = 9 - i - 1 := by omega
            rw [this]
            exact hrest

/-- With at least `9 - i` bytes remaining the varint loop always returns a
value, consuming a total of between `i + 1` and `9` bytes. -/
theorem rvList_total : ∀ (fuel : Nat) (bs : List Nat) (acc i : Nat), i ≤ 8 →
    9 - i ≤ fuel → 9 - i ≤ bs.length →
    ∃ v n, rvList fuel bs acc i = some ((v, n)) ∧ i + 1 ≤ n ∧ n ≤ 9 := by
  intro fuel
  induction fuel with
  | zero => intro bs acc i hi hf; omega
  | succ fuel ih =>
    intro bs acc i hi hf hlen
    cases bs with
    | nil => simp at hlen; omega
    | cons b rest =>
      by_cases h8 : 8 ≤ i
      · refine ⟨((acc <<< 8) ||| b % 256) % 2 ^ 64, i + 1, ?_, by omega, by omega⟩
        simp [rvList, h8]
      · by_cases hcont : b % 256 &&& 0x80 = 0
        · refine ⟨((acc <<< 7) ||| (b % 256 &&& 0x7F)) % 2 ^ 64, i + 1, ?_, by omega, by omega⟩
          simp [rvList, h8, hcont]
        · obtain ⟨v, n, hrec, hn1, hn2⟩ :=
            ih rest (((acc <<< 7) ||| (b % 256 &&& 0x7F)) % 2 ^ 64) (i + 1)
              (by omega) (by omega) (by simp at hlen ⊢; omega)
          refine ⟨v, n, ?_, by omega, hn2⟩
          simp only [rvList, h8, if_false, hcont]
          exact hrec

/-- C9: with nine bytes available at `offset`, `read_varint` always
returns, consumes between 1 and 9 bytes, and never inspects any byte past
`offset + 8` — any buffer agreeing on those nine positions yields the
identical result. -/
theorem readVarint_bounded (buf buf2 : List Nat) (offset offset2 : Nat)
    (hlen : offset + 9 ≤ buf.length)
    (hag : ∀ j, j < 9 → buf[offset + j]? = buf2[offset2 + j]?) :
    ∃ v n, 1 ≤ n ∧ n ≤ 9 ∧ readVarint buf offset = some ((v, n)) ∧
      readVarint buf2 offset2 = some ((v, n)) := by
  have htake : (buf.drop offset).take 9 = (buf2.drop offset2).take 9 := by
    apply List.ext_getElem?
    intro k
    rw [List.getElem?_take, List.getElem?_take]
    by_cases hk : k < 9
    · rw [if_pos hk, if_pos hk, List.getElem?_drop, List.getElem?_drop]
      exact hag k hk
    · rw [if_neg hk, if_neg hk]
  have hdlen : 9 ≤ (buf.drop offset).length := by
    rw [List.length_drop]
    omega
  obtain ⟨v, n, hr, hn1, hn2⟩ := rvList_total 9 (buf.drop offset) 0 0 (by omega) (by omega)
    (by omega)
  refine ⟨v, n, by omega, hn2, ?_, ?_⟩
  · rw [readVarint, readVarintAux_eq_rvList]
    simpa using hr
  · rw [readVarint, readVarintAux_eq_rvList]
    have hloc := rvList_local 9 (buf2.drop offset2) (buf.drop offset) 0 0 (by omega)
      (by simpa using htake.symm)
    simp only [Nat.add_zero, List.drop_zero]
    rw [hloc]
    exact hr

/-- C9 witness: a nine-byte all-continuation buffer, against an extension
of it differing past position 8. -/
theorem readVarint_bounded_witness :
    ∃ v n, 1 ≤ n ∧ n ≤ 9 ∧
      readVarint [128, 128, 128, 128, 128, 128, 128, 128, 7] 0 = some ((v, n)) ∧
      readVarint [128, 128, 128, 128, 128, 128, 128, 128, 7, 99] 0 = some ((v, n)) :=
  readVarint_bounded [128, 128, 128, 128, 128, 128, 128, 128, 7]
    [128, 128, 128, 128, 128, 128, 128, 128, 7, 99] 0 0 (by decide)
    (by intro j hj; interval_cases j <;> rfl)

/-- C6: on a buffer that ends while the continuation bit is still set, the
decoder performs an out-of-bounds read — modelled as `none` — rather than
returning any value: there is no `Truncated` error value in the source
(`read_varint` returns a bare pair, so the claimed error cannot be
produced; the Rust code panics instead). -/
theorem readVarint_truncated_panics :
    (128 &&& 128 ≠ 0) ∧ readVarint [128] 0 = none := by
  constructor
  · decide
  · decide

/-- C7: record decoding never checks the declared payload size.  On this
six-byte page the cell at offset 0 declares a payload of 1000 bytes —
far beyond the page — yet `extract_column_from_table_cell` happily returns
the column value instead of an `OverflowUnsupported` failure (no such
check or error exists in the source). -/
theorem extract_ignores_declared_payload :
    readVarint [0x87, 0x68, 5, 2, 15, 65] 0 = some ((1000, 2)) ∧
    ([0x87, 0x68, 5, 2, 15, 65] : List Nat).length = 6 ∧
    extract_column_from_table_cell [0x87, 0x68, 5, 2, 15, 65] 0 0 = some (some [65]) := by
  refine ⟨by decide, by decide, by decide⟩

/-- C8: the source's `serial_type_size` agrees with the specification's
serial-type catalog at every serial code. -/
theorem serial_type_size_matches_catalog (s : Nat) :
    serial_type_size s = specSerialSize s := by
  by_cases h : s < 12
  · interval_cases s <;> rfl
  · obtain ⟨k, rfl⟩ : ∃ k, s = k + 12 := ⟨s - 12, by omega⟩
    have h1 : serial_type_size (k + 12) =
        if 12 ≤ k + 12 ∧ (k + 12) % 2 = 0 then (k + 12 - 12) / 2
        else if 13 ≤ k + 12 ∧ (k + 12) % 2 = 1 then (k + 12 - 13) / 2
        else 0 := rfl
    have h2 : specSerialSize (k + 12) =
        if 12 ≤ k + 12 ∧ (k + 12) % 2 = 0 then (k + 12 - 12) / 2
        else (k + 12 - 13) / 2 := by
      unfold specSerialSize
      rw [if_neg (show ¬ k + 12 = 0 by omega), if_neg (show ¬ k + 12 = 1 by omega),
        if_neg (show ¬ k + 12 = 2 by omega), if_neg (show ¬ k + 12 = 3 by omega),
        if_neg (show ¬ k + 12 = 4 by omega), if_neg (show ¬ k + 12 = 5 by omega),
        if_neg (show ¬ k + 12 = 6 by omega), if_neg (show ¬ k + 12 = 7 by omega),
        if_neg (show ¬ (k + 12 = 8 ∨ k + 12 = 9) by omega),
        if_neg (show ¬ (k + 12 = 10 ∨ k + 12 = 11) by omega)]
    rw [h1, h2]
    by_cases hp : (k + 12) % 2 = 0
    · rw [if_pos (show 12 ≤ k + 12 ∧ (k + 12) % 2 = 0 from ⟨by omega, hp⟩),
        if_pos (show 12 ≤ k + 12 ∧ (k + 12) % 2 = 0 from ⟨by omega, hp⟩)]
    · rw [if_neg (show ¬ (12 ≤ k + 12 ∧ (k + 12) % 2 = 0) from fun hc => hp hc.2),
        if_neg (show ¬ (12 ≤ k + 12 ∧ (k + 12) % 2 = 0) from fun hc => hp hc.2),
        if_pos (show 13 ≤ k + 12 ∧ (k + 12) % 2 = 1 by omega)]

/-- Walking the serial loop to a column whose serial type is 0: the loop
reaches it without touching the page, and resolves it by position alone. -/
theorem extractLoop_serial0 (page : List Nat) (rowid : Nat) :
    ∀ (ss : List Nat) (k idx bodyPos : Nat), ss[k]? = some 0 →
      extractLoop page rowid (idx + k) ss idx bodyPos =
        if idx + k = 0 then some (some (decimalDigits rowid)) else some none := by
  intro ss
  induction ss with
  | nil => intro k idx bodyPos h; simp at h
  | cons s rest ih =>
    intro k idx bodyPos h
    cases k with
    | zero =>
      simp only [List.getElem?_cons_zero, Option.some_inj] at h
      subst h
      simp [extractLoop, serial_type_size]
    | succ k2 =>
      simp only [List.getElem?_cons_succ] at h
      have hne : ¬ (idx = idx + (k2 + 1)) := by omega
      show extractLoop page rowid (idx + (k2 + 1)) (s :: rest) idx bodyPos = _
      rw [extractLoop]
      simp only [hne, if_false]
      have harith : idx + (k2 + 1) = (idx + 1) + k2 := by omega
      rw [harith]
      rw [ih k2 (idx + 1) (bodyPos + serial_type_size s) h]

/-- Helper: the serial-0 behaviour of `extract_column_from_table_cell`,
given that the cell's two leading varints and its record header parse and
that the `i`-th serial type is 0. -/
theorem extract_serial0_aux (page : List Nat) (cellOff i : Nat)
    (pl l1 rid l2 hs l3 : Nat) (serials : List Nat)
    (h1 : readVarint page cellOff = some ((pl, l1)))
    (h2 : readVarint page (cellOff + l1) = some ((rid, l2)))
    (h3 : readVarint page (cellOff + l1 + l2) = some ((hs, l3)))
    (h4 : readSerials page (cellOff + l1 + l2 + l3) (cellOff + l1 + l2 + hs) = some serials)
    (h5 : serials[i]? = some 0) :
    extract_column_from_table_cell page cellOff i =
      if i = 0 then some (some (decimalDigits rid)) else some none := by
  have hlen : i < serials.length := by
    by_contra hc
    rw [List.getElem?_eq_none (by omega)] at h5
    exact Option.noConfusion h5
  rw [extract_column_from_table_cell]
  simp only [h1, Option.bind_eq_bind, Option.some_bind]
  simp only [h2, Option.bind_eq_bind, Option.some_bind]
  simp only [h3, Option.bind_eq_bind, Option.some_bind]
  simp only [h4, Option.bind_eq_bind, Option.some_bind]
  rw [if_pos hlen]
  have := extractLoop_serial0 page rid serials i 0 (cellOff + l1 + l2 + hs) h5
  simpa using this

/-- C4: in `extract_column_from_table_cell`, a column stored with serial
type 0 (SQL NULL) decodes to `None` — except at column 0, the position the
source treats as the rowid-aliased `INTEGER PRIMARY KEY` column, where it
yields the cell's rowid rendered as a decimal string.  The hypotheses say
exactly that the cell's two leading varints and its record header parse,
and that the `i`-th serial type is 0. -/
theorem extract_column_serial0 (page : List Nat) (cellOff i : Nat)
    (pl l1 rid l2 hs l3 : Nat) (serials : List Nat)
    (h1 : readVarint page cellOff = some ((pl, l1)))
    (h2 : readVarint page (cellOff + l1) = some ((rid, l2)))
    (h3 : readVarint page (cellOff + l1 + l2) = some ((hs, l3)))
    (h4 : readSerials page (cellOff + l1 + l2 + l3) (cellOff + l1 + l2 + hs) = some serials)
    (h5 : serials[i]? = some 0) :
    extract_column_from_table_cell page cellOff i =
      if i = 0 then some (some (decimalDigits rid)) else some none :=
  extract_serial0_aux page cellOff i pl l1 rid l2 hs l3 serials h1 h2 h3 h4 h5

/-- C4 witness: the four-byte cell `[3, 5, 2, 0]` — payload size 3, rowid
5, header size 2, single serial type 0 — at column 0 yields the decimal
string of rowid 5. -/
theorem extract_column_serial0_witness :
    extract_column_from_table_cell [3, 5, 2, 0] 0 0 = some (some [53]) := by
  have h := extract_column_serial0 [3, 5, 2, 0] 0 0 3 1 5 1 2 1 [0]
    (by decide) (by decide) (by decide) (by decide) (by decide)
  simpa [decimalDigits, decDigitsAux] using h

/-! ## Walker characterisations of the table scans -/

theorem mapOpt_length {α β : Type} (f : α → Option β) :
    ∀ (as : List α) (bs : List β), mapOpt f as = some bs → bs.length = as.length := by
  intro as
  induction as with
  | nil =>
    intro bs h
    simp only [mapOpt, Option.some_inj] at h
    subst h
    rfl
  | cons a rest ih =>
    intro bs h
    simp only [mapOpt, Option.bind_eq_bind, Option.bind_eq_some, Option.some_inj] at h
    obtain ⟨b, hb, bs2, hbs2, rfl⟩ := h
    simp [ih bs2 hbs2]

theorem mapOpt_pure {α β : Type} (g : α → β) :
    ∀ as : List α, mapOpt (fun a => some (g a)) as = some (as.map g) := by
  intro as
  induction as with
  | nil => rfl
  | cons a rest ih => simp [mapOpt, ih]

theorem mapOpt_eq_map {α β : Type} (f : α → Option β) (g : α → β) :
    ∀ as : List α, (∀ a ∈ as, f a = some (g a)) → mapOpt f as = some (as.map g) := by
  intro as
  induction as with
  | nil => intro _; rfl
  | cons a rest ih =>
    intro h
    have ha := h a (List.mem_cons_self _ _)
    have hr := ih (fun x hx => h x (List.mem_cons_of_mem _ hx))
    simp [mapOpt, ha, hr]

theorem mapOpt_mem_inv {α β : Type} (f : α → Option β) :
    ∀ (as : List α) (bs : List β), mapOpt f as = some bs →
      ∀ b ∈ bs, ∃ a ∈ as, f a = some b := by
  intro as
  induction as with
  | nil =>
    intro bs h b hb
    simp only [mapOpt, Option.some_inj] at h
    subst h
    simp at hb
  | cons a rest ih =>
    intro bs h b hb
    simp only [mapOpt, Option.bind_eq_bind, Option.bind_eq_some, Option.some_inj] at h
    obtain ⟨b0, hb0, bs2, hbs2, rfl⟩ := h
    rcases List.mem_cons.1 hb with rfl | hmem
    · exact ⟨a, List.mem_cons_self _ _, hb0⟩
    · obtain ⟨a2, ha2, hfa2⟩ := ih bs2 hbs2 b hmem
      exact ⟨a2, List.mem_cons_of_mem _ ha2, hfa2⟩

theorem reduceOption_map_some {α β : Type} (g : α → β) :
    ∀ as : List α, (as.map (fun a => some (g a))).reduceOption = as.map g := by
  intro as
  induction as with
  | nil => rfl
  | cons a rest ih => simp [ih]

/-- Inversion of the walker's per-leaf-cell reads. -/
theorem leafCell_inv (page : List Nat) (ho i : Nat) (c : TableCell)
    (h : leafCell page ho i = some c) :
    c.page = page ∧ readU16 page (ho + 8 + 2 * i) = some c.off ∧
    ∃ pl1 rl2 : Nat × Nat, readVarint page c.off = some pl1 ∧
      readVarint page (c.off + pl1.2) = some rl2 ∧ rl2.1 = c.rowid := by
  rw [leafCell] at h
  simp only [Option.bind_eq_bind, Option.bind_eq_some, Option.some_inj] at h
  obtain ⟨coff, hcoff, pl1, hpl1, rl2, hrl2, rfl⟩ := h
  exact ⟨rfl, hcoff, pl1, rl2, hpl1, hrl2, rfl⟩

/-- The leaf loop of a scan whose per-cell work depends only on the page
and the cell offset agrees, cell by cell, with the walker's leaf cells. -/
theorem leafLoop_eq {β : Type} (page : List Nat) (ho : Nat) (g : List Nat → Nat → Option β) :
    ∀ (is : List Nat) (cs : List TableCell), mapOpt (leafCell page ho) is = some cs →
      mapOpt (fun i => (readU16 page (ho + 8 + 2 * i)).bind (fun coff => g page coff)) is
        = mapOpt (fun c => g c.page c.off) cs := by
  intro is
  induction is with
  | nil =>
    intro cs h
    simp only [mapOpt, Option.some_inj] at h
    subst h
    rfl
  | cons i rest ih =>
    intro cs h
    simp only [mapOpt, Option.bind_eq_bind, Option.bind_eq_some, Option.some_inj] at h
    obtain ⟨c, hc, cs2, hcs2, rfl⟩ := h
    obtain ⟨hcp, hcoff, -⟩ := leafCell_inv page ho i c hc
    simp only [mapOpt, Option.bind_eq_bind, hcoff, Option.some_bind, hcp, ih cs2 hcs2]

/-- The interior-children loop of a scan agrees with the walker's children
loop, given the per-child relation between the two scans. -/
theorem childLoop_eq {α β : Type} (page : List Nat) (ho : Nat)
    (F : Nat → Option α) (G : Nat → Option β) (rel : α → Option β)
    (hFG : ∀ child a, F child = some a → G child = rel a) :
    ∀ (is : List Nat) (cls : List α),
      mapOpt (fun i => (interiorChild page ho i).bind F) is = some cls →
      mapOpt (fun i => (interiorChild page ho i).bind G) is = mapOpt rel cls := by
  intro is
  induction is with
  | nil =>
    intro cls h
    simp only [mapOpt, Option.some_inj] at h
    subst h
    rfl
  | cons i rest ih =>
    intro cls h
    simp only [mapOpt, Option.bind_eq_bind, Option.bind_eq_some, Option.some_inj] at h
    obtain ⟨a, ⟨child, hchild, hFa⟩, cls2, hcls2, rfl⟩ := h
    simp only [mapOpt, Option.bind_eq_bind, hchild, Option.some_bind, hFG child a hFa,
      ih cls2 hcls2]

/-- C3-style characterisation: on any tree the walker can read, the Counter
visitor returns exactly the number of collected leaf cells. -/
theorem count_of_cells (db : Db) : ∀ (fuel pageNo : Nat) (cells : List TableCell),
    scan_table_btree_cells db fuel pageNo = some cells →
    scan_table_btree_count db fuel pageNo = some cells.length := by
  intro fuel
  induction fuel with
  | zero => intro pageNo cells h; exact Option.noConfusion h
  | succ fuel ih =>
    intro pageNo cells h
    rw [scan_table_btree_cells] at h
    rw [scan_table_btree_count]
    simp only [Option.bind_eq_bind, Option.bind_eq_some] at h
    obtain ⟨page, hpg, t, hpt, cc, hcc, h⟩ := h
    simp only [hpg, hpt, hcc, Option.bind_eq_bind, Option.some_bind]
    by_cases ht : t = 0x0D
    · subst ht
      rw [if_pos rfl] at h ⊢
      rw [mapOpt_length (leafCell page (headerOff pageNo)) (List.range cc) cells h,
        List.length_range]
    · rw [if_neg ht] at h ⊢
      by_cases ht5 : t = 0x05
      · subst ht5
        rw [if_pos rfl] at h ⊢
        simp only [Option.bind_eq_bind, Option.bind_eq_some, Option.some_inj] at h
        obtain ⟨rc, hrc, cls, hcls, rightCells, hright, rfl⟩ := h
        rw [hrc]
        simp only [Option.some_bind]
        rw [childLoop_eq page (headerOff pageNo) (scan_table_btree_cells db fuel)
          (scan_table_btree_count db fuel) (fun cl => some cl.length)
          (fun child a hfa => ih child a hfa) (List.range cc) cls hcls]
        rw [mapOpt_pure List.length cls]
        simp only [Option.some_bind]
        rw [ih rc rightCells hright]
        simp only [Option.some_bind, Option.some_inj]
        rw [List.length_append, List.length_flatten]
      · rw [if_neg ht5] at h ⊢
        simp only [Option.some_inj] at h
        subst h
        rfl

theorem mapOpt_append {α β : Type} (f : α → Option β) :
    ∀ as bs : List α, mapOpt f (as ++ bs)
      = (mapOpt f as).bind (fun xs => (mapOpt f bs).bind (fun ys => some (xs ++ ys))) := by
  intro as bs
  induction as with
  | nil => cases h : mapOpt f bs <;> simp [mapOpt, h]
  | cons a rest ih =>
    cases hfa : f a with
    | none => simp [mapOpt, hfa]
    | some b =>
      cases h1 : mapOpt f rest <;> cases h2 : mapOpt f bs <;>
        simp [mapOpt, hfa, ih, h1, h2]

theorem mapOpt_flatten {α β : Type} (f : α → Option β) :
    ∀ Ls : List (List α), mapOpt f Ls.flatten
      = (mapOpt (fun l => mapOpt f l) Ls).bind (fun rs => some rs.flatten) := by
  intro Ls
  induction Ls with
  | nil => simp [mapOpt]
  | cons l Ls ih =>
    rw [List.flatten_cons, mapOpt_append, ih]
    cases h1 : mapOpt f l <;> cases h2 : mapOpt (fun l => mapOpt f l) Ls <;>
      simp [mapOpt, h1, h2]

/-- The Projector visitor emits exactly one projected row per walker cell,
in traversal order (and fails exactly when some cell's projection fails). -/
theorem allcols_of_cells (db : Db) (idxs : List Nat) :
    ∀ (fuel pageNo : Nat) (cells : List TableCell),
    scan_table_btree_cells db fuel pageNo = some cells →
    scan_table_btree_all_columns db fuel pageNo idxs
      = mapOpt (fun c => projectCell c.page c.off idxs) cells := by
  intro fuel
  induction fuel with
  | zero => intro pageNo cells h; exact Option.noConfusion h
  | succ fuel ih =>
    intro pageNo cells h
    rw [scan_table_btree_cells] at h
    rw [scan_table_btree_all_columns]
    simp only [Option.bind_eq_bind, Option.bind_eq_some] at h
    obtain ⟨page, hpg, t, hpt, cc, hcc, h⟩ := h
    simp only [hpg, hpt, hcc, Option.bind_eq_bind, Option.some_bind]
    by_cases ht : t = 0x0D
    · subst ht
      rw [if_pos rfl] at h ⊢
      exact leafLoop_eq page (headerOff pageNo) (fun p o => projectCell p o idxs)
        (List.range cc) cells h
    · rw [if_neg ht] at h ⊢
      by_cases ht5 : t = 0x05
      · subst ht5
        rw [if_pos rfl] at h ⊢
        simp only [Option.bind_eq_bind, Option.bind_eq_some, Option.some_inj] at h
        obtain ⟨rc, hrc, cls, hcls, rightCells, hright, rfl⟩ := h
        rw [hrc]
        simp only [Option.some_bind]
        rw [childLoop_eq page (headerOff pageNo) (scan_table_btree_cells db fuel)
          (fun child => scan_table_btree_all_columns db fuel child idxs)
          (fun cl => mapOpt (fun c => projectCell c.page c.off idxs) cl)
          (fun child a hfa => ih child a hfa) (List.range cc) cls hcls]
        rw [mapOpt_append, mapOpt_flatten, ih rc rightCells hright]
        cases h1 : mapOpt (fun cl => mapOpt (fun c => projectCell c.page c.off idxs) cl) cls <;>
          cases h2 : mapOpt (fun c => projectCell c.page c.off idxs) rightCells <;>
          simp [h1, h2]
      · rw [if_neg ht5] at h ⊢
        simp only [Option.some_inj] at h
        subst h
        rfl

theorem mapOpt_bindflatten {α β : Type} (f : α → Option (List β)) :
    ∀ cls : List (List α),
      mapOpt (fun cl => (mapOpt f cl).bind (fun rls => some rls.flatten)) cls
        = (mapOpt (fun cl => mapOpt f cl) cls).bind
            (fun rss => some (rss.map List.flatten)) := by
  intro cls
  induction cls with
  | nil => simp [mapOpt]
  | cons cl cls ih =>
    cases h1 : mapOpt f cl <;> cases h2 : mapOpt (fun cl => mapOpt f cl) cls <;>
      simp [mapOpt, h1, h2, ih]

/-- The Filter-projector emits, per walker cell in traversal order, the
projection of that cell exactly when its where-column equals the target. -/
theorem where_of_cells (db : Db) (idxs : List Nat) (widx : Nat) (wval : List Nat) :
    ∀ (fuel pageNo : Nat) (cells : List TableCell),
    scan_table_btree_cells db fuel pageNo = some cells →
    scan_table_btree_where db fuel pageNo idxs widx wval
      = (mapOpt (fun c => whereCellRows c.page c.off idxs widx wval) cells).bind
          (fun rls => some rls.flatten) := by
  intro fuel
  induction fuel with
  | zero => intro pageNo cells h; exact Option.noConfusion h
  | succ fuel ih =>
    intro pageNo cells h
    rw [scan_table_btree_cells] at h
    rw [scan_table_btree_where]
    simp only [Option.bind_eq_bind, Option.bind_eq_some] at h
    obtain ⟨page, hpg, t, hpt, cc, hcc, h⟩ := h
    simp only [hpg, hpt, hcc, Option.bind_eq_bind, Option.some_bind]
    by_cases ht : t = 0x0D
    · subst ht
      rw [if_pos rfl] at h ⊢
      rw [leafLoop_eq page (headerOff pageNo) (fun p o => whereCellRows p o idxs widx wval)
        (List.range cc) cells h]
    · rw [if_neg ht] at h ⊢
      by_cases ht5 : t = 0x05
      · subst ht5
        rw [if_pos rfl] at h ⊢
        simp only [Option.bind_eq_bind, Option.bind_eq_some, Option.some_inj] at h
        obtain ⟨rc, hrc, cls, hcls, rightCells, hright, rfl⟩ := h
        rw [hrc]
        simp only [Option.some_bind]
        rw [childLoop_eq page (headerOff pageNo) (scan_table_btree_cells db fuel)
          (fun child => scan_table_btree_where db fuel child idxs widx wval)
          (fun cl => (mapOpt (fun c => whereCellRows c.page c.off idxs widx wval) cl).bind
            (fun rls => some rls.flatten))
          (fun child a hfa => ih child a hfa) (List.range cc) cls hcls]
        rw [mapOpt_bindflatten, mapOpt_append, mapOpt_flatten, ih rc rightCells hright]
        cases h1 : mapOpt (fun cl =>
            mapOpt (fun c => whereCellRows c.page c.off idxs widx wval) cl) cls <;>
          cases h2 : mapOpt (fun c => whereCellRows c.page c.off idxs widx wval) rightCells <;>
          simp [h1, h2, List.flatten_append, List.flatten_flatten]
      · rw [if_neg ht5] at h ⊢
        simp only [Option.some_inj] at h
        subst h
        rfl

/-- The reference result of a pointed rowid lookup over a cell list: `some
none` when no cell carries rowid `r`, and otherwise the projection of the
first such cell (failing when that projection fails). -/
def findResult (r : Nat) (idxs : List Nat) (cells : List TableCell) :
    Option (Option (List (List Nat))) :=
  match cells.find? (fun c => c.rowid == r) with
  | none => some none
  | some c => (projectCell c.page c.off idxs).map some

theorem searchLeafCells_eq (page : List Nat) (r : Nat) (idxs : List Nat) (ho : Nat) :
    ∀ (is : List Nat) (cs : List TableCell), mapOpt (leafCell page ho) is = some cs →
      searchLeafCells page r idxs ho is = findResult r idxs cs := by
  intro is
  induction is with
  | nil =>
    intro cs h
    simp only [mapOpt, Option.some_inj] at h
    subst h
    rfl
  | cons i rest ih =>
    intro cs h
    simp only [mapOpt, Option.bind_eq_bind, Option.bind_eq_some, Option.some_inj] at h
    obtain ⟨c, hc, cs2, hcs2, rfl⟩ := h
    obtain ⟨hcp, hcoff, pl1, rl2, hpl1, hrl2, hrid⟩ := leafCell_inv page ho i c hc
    rw [searchLeafCells]
    simp only [Option.bind_eq_bind, hcoff, Option.some_bind, hpl1, hrl2, hrid]
    by_cases hr : c.rowid = r
    · rw [if_pos hr]
      have hfind : (c :: cs2).find? (fun c => c.rowid == r) = some c :=
        List.find?_cons_of_pos _ (by simp [hr])
      simp only [findResult, hfind, hcp]
      cases hp : projectCell page c.off idxs <;> simp [hp]
    · rw [if_neg hr]
      have hfind : (c :: cs2).find? (fun c => c.rowid == r)
          = cs2.find? (fun c => c.rowid == r) :=
        List.find?_cons_of_neg _ (by simp [hr])
      rw [ih cs2 hcs2]
      simp only [findResult, hfind]

theorem searchChildren_eq (page : List Nat) (ho : Nat)
    (F : Nat → Option (List TableCell)) (G : Nat → Option (Option (List (List Nat))))
    (r : Nat) (idxs : List Nat)
    (hFG : ∀ child cl, F child = some cl → G child = findResult r idxs cl) :
    ∀ (is : List Nat) (cls : List (List TableCell)),
      mapOpt (fun i => (interiorChild page ho i).bind F) is = some cls →
      searchChildren G page ho is = findResult r idxs cls.flatten := by
  intro is
  induction is with
  | nil =>
    intro cls h
    simp only [mapOpt, Option.some_inj] at h
    subst h
    rfl
  | cons i rest ih =>
    intro cls h
    simp only [mapOpt, Option.bind_eq_bind, Option.bind_eq_some, Option.some_inj] at h
    obtain ⟨cl, ⟨child, hchild, hF⟩, cls2, hcls2, rfl⟩ := h
    rw [searchChildren]
    simp only [Option.bind_eq_bind, hchild, Option.some_bind, hFG child cl hF]
    rw [List.flatten_cons]
    cases hf : cl.find? (fun c => c.rowid == r) with
    | some c =>
      have h1 : findResult r idxs cl = (projectCell c.page c.off idxs).map some := by
        simp only [findResult, hf]
      have h2 : findResult r idxs (cl ++ cls2.flatten)
          = (projectCell c.page c.off idxs).map some := by
        simp only [findResult, List.find?_append, hf, Option.or]
      rw [h1, h2]
      cases hp : projectCell c.page c.off idxs <;> simp [hp]
    | none =>
      have h1 : findResult r idxs cl = some none := by simp only [findResult, hf]
      have h2 : findResult r idxs (cl ++ cls2.flatten) = findResult r idxs cls2.flatten := by
        simp only [findResult, List.find?_append, hf, Option.or]
      rw [h1, h2]
      simp only [Option.some_bind]
      exact ih cls2 hcls2

/-- C1-style characterisation: on any tree the walker can read, the
pointed lookup returns `some none` exactly when no collected cell carries
the target rowid, and otherwise the projection of the first cell that
does. -/
theorem forRowid_of_cells (db : Db) (r : Nat) (idxs : List Nat) :
    ∀ (fuel pageNo : Nat) (cells : List TableCell),
    scan_table_btree_cells db fuel pageNo = some cells →
    scan_table_btree_for_rowid db fuel pageNo r idxs = findResult r idxs cells := by
  intro fuel
  induction fuel with
  | zero => intro pageNo cells h; exact Option.noConfusion h
  | succ fuel ih =>
    intro pageNo cells h
    rw [scan_table_btree_cells] at h
    rw [scan_table_btree_for_rowid]
    simp only [Option.bind_eq_bind, Option.bind_eq_some] at h
    obtain ⟨page, hpg, t, hpt, cc, hcc, h⟩ := h
    simp only [hpg, hpt, hcc, Option.bind_eq_bind, Option.some_bind]
    by_cases ht : t = 0x0D
    · subst ht
      rw [if_pos rfl] at h ⊢
      exact searchLeafCells_eq page r idxs (headerOff pageNo) (List.range cc) cells h
    · rw [if_neg ht] at h ⊢
      by_cases ht5 : t = 0x05
      · subst ht5
        rw [if_pos rfl] at h ⊢
        simp only [Option.bind_eq_bind, Option.bind_eq_some, Option.some_inj] at h
        obtain ⟨rc, hrc, cls, hcls, rightCells, hright, rfl⟩ := h
        rw [hrc]
        simp only [Option.some_bind]
        rw [searchChildren_eq page (headerOff pageNo) (scan_table_btree_cells db fuel)
          (fun child => scan_table_btree_for_rowid db fuel child r idxs) r idxs
          (fun child cl hf => ih child cl hf) (List.range cc) cls hcls]
        cases hf : cls.flatten.find? (fun c => c.rowid == r) with
        | some c =>
          have h1 : findResult r idxs cls.flatten
              = (projectCell c.page c.off idxs).map some := by
            simp only [findResult, hf]
          have h2 : findResult r idxs (cls.flatten ++ rightCells)
              = (projectCell c.page c.off idxs).map some := by
            simp only [findResult, List.find?_append, hf, Option.or]
          rw [h1, h2]
          cases hp : projectCell c.page c.off idxs <;> simp [hp]
        | none =>
          have h1 : findResult r idxs cls.flatten = some none := by
            simp only [findResult, hf]
          have h2 : findResult r idxs (cls.flatten ++ rightCells)
              = findResult r idxs rightCells := by
            simp only [findResult, List.find?_append, hf, Option.or]
          rw [h1, h2]
          simp only [Option.some_bind]
          exact ih rc rightCells hright
      · rw [if_neg ht5] at h ⊢
        simp only [Option.some_inj] at h
        subst h
        rfl

/-! ## A concrete two-row test database, used by the witnesses -/

/-- A table-leaf page (type `0x0D`) holding two cells: rowid 1 with
columns (INTEGER PRIMARY KEY alias, text "A") and rowid 2 with (alias,
text "B").  Cell pointers at 12 and 18. -/
def testLeafPage : List Nat :=
  [0x0D, 0, 0, 0, 2, 0, 0, 0, 0, 12, 0, 18,
   4, 1, 3, 0, 15, 65,
   4, 2, 3, 0, 15, 66]

/-- An index-leaf page (type `0x0A`) holding the corresponding index
entries: key "A" with rowid 1 and key "B" with rowid 2. -/
def testIndexPage : List Nat :=
  [0x0A, 0, 0, 0, 2, 0, 0, 0, 0, 12, 0, 18,
   5, 3, 15, 1, 65, 1,
   5, 3, 15, 1, 66, 2]

/-- The test database: table B-tree rooted at page 2, index B-tree rooted
at page 3. -/
def testDb : Db :=
  ⟨fun n => if n = 2 then some testLeafPage else if n = 3 then some testIndexPage else none⟩

/-- The walker cells of the test table. -/
def testCells : List TableCell :=
  [⟨testLeafPage, 12, 1⟩, ⟨testLeafPage, 18, 2⟩]

/-- C10: on a page whose type byte is neither `0x0D` (table leaf) nor
`0x05` (table interior), every table B-tree walk returns successfully with
an empty contribution — count 0, no rows, no match — rather than an error.
The hypotheses are the reads the scans perform before dispatching on the
page type. -/
theorem other_page_type_empty (db : Db) (fuel pageNo r widx : Nat)
    (idxs wval : List Nat) (page : List Nat) (t cc : Nat)
    (hp : db.pages pageNo = some page)
    (ht : readByte page (headerOff pageNo) = some t)
    (hcc : readU16 page (headerOff pageNo + 3) = some cc)
    (ht13 : t ≠ 0x0D) (ht5 : t ≠ 0x05) :
    scan_table_btree_count db (fuel + 1) pageNo = some 0 ∧
    scan_table_btree_all_columns db (fuel + 1) pageNo idxs = some [] ∧
    scan_table_btree_where db (fuel + 1) pageNo idxs widx wval = some [] ∧
    scan_table_btree_for_rowid db (fuel + 1) pageNo r idxs = some none := by
  refine ⟨?_, ?_, ?_, ?_⟩
  · rw [scan_table_btree_count]
    simp only [hp, ht, hcc, Option.bind_eq_bind, Option.some_bind, if_neg ht13, if_neg ht5]
  · rw [scan_table_btree_all_columns]
    simp only [hp, ht, hcc, Option.bind_eq_bind, Option.some_bind, if_neg ht13, if_neg ht5]
  · rw [scan_table_btree_where]
    simp only [hp, ht, hcc, Option.bind_eq_bind, Option.some_bind, if_neg ht13, if_neg ht5]
  · rw [scan_table_btree_for_rowid]
    simp only [hp, ht, hcc, Option.bind_eq_bind, Option.some_bind, if_neg ht13, if_neg ht5]

/-- C10 witness: page 3 of the test database is an index leaf (`0x0A`);
all four table walks return empty contributions on it. -/
theorem other_page_type_empty_witness :
    scan_table_btree_count testDb 1 3 = some 0 ∧
    scan_table_btree_all_columns testDb 1 3 [0] = some [] ∧
    scan_table_btree_where testDb 1 3 [0] 1 [65] = some [] ∧
    scan_table_btree_for_rowid testDb 1 3 1 [0] = some none :=
  other_page_type_empty testDb 0 3 1 1 [0] [65] testIndexPage 0x0A 2
    (by decide) (by decide) (by decide) (by decide) (by decide)

/-- C3: on any tree the walker can read, the Counter visitor returns
exactly the number of rows emitted by the Projector walk of the same root;
and, under the format invariant that rowids are unique within a table
B-tree (spec §3, invariant 3), that number is the number of distinct
rowids in the table. -/
theorem count_matches_projector (db : Db) (fuel root : Nat) (idxs : List Nat)
    (cells : List TableCell) (rows : List (List (List Nat)))
    (hw : scan_table_btree_cells db fuel root = some cells)
    (hp : scan_table_btree_all_columns db fuel root idxs = some rows) :
    scan_table_btree_count db fuel root = some rows.length ∧
    ((cells.map TableCell.rowid).Nodup →
      scan_table_btree_count db fuel root = some (cells.map TableCell.rowid).dedup.length) := by
  have hchar := allcols_of_cells db idxs fuel root cells hw
  rw [hchar] at hp
  have hlen : rows.length = cells.length :=
    mapOpt_length (fun c => projectCell c.page c.off idxs) cells rows hp
  have hcount := count_of_cells db fuel root cells hw
  constructor
  · rw [hcount, hlen]
  · intro hnd
    rw [List.Nodup.dedup hnd, List.length_map]
    exact hcount

/-- C3 witness: the two-row test table — the Counter agrees with the
two-row Projector result. -/
theorem count_matches_projector_witness :
    scan_table_btree_count testDb 1 2 = some 2 ∧
    scan_table_btree_count testDb 1 2
      = some (testCells.map TableCell.rowid).dedup.length := by
  have h := count_matches_projector testDb 1 2 [0, 1] testCells
    [[[49], [65]], [[50], [66]]] (by decide) (by decide)
  exact ⟨h.1, h.2 (by decide)⟩

/-- The cell-level precondition of the rowid-alias rewrite: the cell's two
leading varints and its record header parse, and its first stored serial
type is 0 (spec §3, invariant 4: the `INTEGER PRIMARY KEY` column stores
serial type 0). -/
def rowidAliasedCell (c : TableCell) : Prop :=
  ∃ pl l1 l2 hs l3 ss,
    readVarint c.page c.off = some ((pl, l1)) ∧
    readVarint c.page (c.off + l1) = some ((c.rowid, l2)) ∧
    readVarint c.page (c.off + l1 + l2) = some ((hs, l3)) ∧
    readSerials c.page (c.off + l1 + l2 + l3) (c.off + l1 + l2 + hs) = some (0 :: ss)

/-- C1: on any tree the walker can read, the pointed lookup
`scan_table_btree_for_rowid` returns `None` exactly when no collected cell
carries the target rowid (`find?` returning `none` says `r` is absent from
the tree); and when the first cell carrying `r` is a well-formed
rowid-aliased cell, projecting its column 0 returns `Some` of the decimal
string of `r`. -/
theorem find_by_rowid_correct (db : Db) (fuel root r : Nat) (idxs : List Nat)
    (cells : List TableCell)
    (hw : scan_table_btree_cells db fuel root = some cells) :
    (cells.find? (fun c => c.rowid == r) = none →
      scan_table_btree_for_rowid db fuel root r idxs = some none) ∧
    (∀ c, cells.find? (fun c => c.rowid == r) = some c → rowidAliasedCell c →
      scan_table_btree_for_rowid db fuel root r [0] = some (some [decimalDigits r])) := by
  constructor
  · intro hnone
    rw [forRowid_of_cells db r idxs fuel root cells hw]
    simp only [findResult, hnone]
  · intro c hfind hcell
    rw [forRowid_of_cells db r [0] fuel root cells hw]
    simp only [findResult, hfind]
    obtain ⟨pl, l1, l2, hs, l3, ss, h1, h2, h3, h4⟩ := hcell
    have hr : c.rowid = r := by
      have := List.find?_some hfind
      simpa using this
    have hext : extract_column_from_table_cell c.page c.off 0
        = some (some (decimalDigits c.rowid)) := by
      have h := extract_serial0_aux c.page c.off 0 pl l1 c.rowid l2 hs l3 (0 :: ss)
        h1 h2 h3 h4 (by simp)
      simpa using h
    have hproj : projectCell c.page c.off [0] = some [decimalDigits c.rowid] := by
      rw [projectCell]
      simp [mapOpt, hext]
    rw [hproj, hr]
    rfl

/-- C1 witness: on the test table, rowid 5 is absent (lookup returns
`None`) and rowid 1 is present (lookup returns its decimal string). -/
theorem find_by_rowid_correct_witness :
    scan_table_btree_for_rowid testDb 1 2 5 [0] = some none ∧
    scan_table_btree_for_rowid testDb 1 2 1 [0] = some (some [decimalDigits 1]) := by
  constructor
  · exact (find_by_rowid_correct testDb 1 2 5 [0] testCells (by decide)).1 (by decide)
  · exact (find_by_rowid_correct testDb 1 2 1 [0] testCells (by decide)).2
      ⟨testLeafPage, 12, 1⟩ (by decide)
      ⟨4, 1, 1, 3, 1, [15], by decide, by decide, by decide, by decide⟩

theorem mapOpt_forall_inv {α β : Type} (f : α → Option β) :
    ∀ (as : List α) (bs : List β), mapOpt f as = some bs →
      ∀ a ∈ as, ∃ b, f a = some b := by
  intro as
  induction as with
  | nil => intro bs _ a ha; simp at ha
  | cons a0 rest ih =>
    intro bs h a ha
    simp only [mapOpt, Option.bind_eq_bind, Option.bind_eq_some, Option.some_inj] at h
    obtain ⟨b0, hb0, bs2, hbs2, rfl⟩ := h
    rcases List.mem_cons.1 ha with rfl | hmem
    · exact ⟨b0, hb0⟩
    · exact ih bs2 hbs2 a hmem

/-- Inversion of the Filter-projector's per-cell work: either the
where-column matched and the cell contributes its projection, or it did
not (including SQL NULL) and the cell contributes nothing. -/
theorem whereCellRows_inv (p : List Nat) (o : Nat) (idxs : List Nat) (widx : Nat)
    (wval : List Nat) (rl : List (List (List Nat)))
    (h : whereCellRows p o idxs widx wval = some rl) :
    ∃ w, extract_column_from_table_cell p o widx = some w ∧
      ((∃ row, w = some wval ∧ projectCell p o idxs = some row ∧ rl = [row]) ∨
       (w ≠ some wval ∧ rl = [])) := by
  rw [whereCellRows] at h
  simp only [Option.bind_eq_bind, Option.bind_eq_some] at h
  obtain ⟨w, hw, h⟩ := h
  refine ⟨w, hw, ?_⟩
  cases w with
  | none =>
    right
    have h2 : some ([] : List (List (List Nat))) = some rl := h
    exact ⟨by simp, (Option.some_inj.1 h2).symm⟩
  | some s =>
    have h2 : (if s = wval then do
        let row ← projectCell p o idxs
        some [row]
      else some []) = some rl := h
    by_cases hs : s = wval
    · subst hs
      rw [if_pos rfl] at h2
      simp only [Option.bind_eq_bind, Option.bind_eq_some, Option.some_inj] at h2
      obtain ⟨row, hrow, rfl⟩ := h2
      exact Or.inl ⟨row, rfl, hrow, rfl⟩
    · rw [if_neg hs] at h2
      exact Or.inr ⟨fun hc => hs (Option.some_inj.1 hc), (Option.some_inj.1 h2).symm⟩

/-- The rows emitted by the Filter-projector are precisely the projections
of the cells whose where-column equals the target, in traversal order. -/
theorem where_rows_shape (idxs : List Nat) (widx : Nat) (wval : List Nat) :
    ∀ (cells : List TableCell) (rls : List (List (List (List Nat)))),
      mapOpt (fun c => whereCellRows c.page c.off idxs widx wval) cells = some rls →
      rls.flatten = (cells.filter (fun c =>
          extract_column_from_table_cell c.page c.off widx == some (some wval))).map
        (fun c => (projectCell c.page c.off idxs).getD []) := by
  intro cells
  induction cells with
  | nil =>
    intro rls h
    simp only [mapOpt, Option.some_inj] at h
    subst h
    rfl
  | cons c cells ih =>
    intro rls h
    simp only [mapOpt, Option.bind_eq_bind, Option.bind_eq_some, Option.some_inj] at h
    obtain ⟨rl, hrl, rls2, hrls2, rfl⟩ := h
    obtain ⟨w, hexw, hcase⟩ := whereCellRows_inv _ _ _ _ _ _ hrl
    rcases hcase with ⟨row, hwv, hrow, hrleq⟩ | ⟨hne, hrleq⟩
    · subst hrleq
      subst hwv
      have hpred : (extract_column_from_table_cell c.page c.off widx
          == some (some wval)) = true := by
        rw [hexw]
        exact beq_self_eq_true _
      rw [List.flatten_cons, ih rls2 hrls2]
      simp [List.filter_cons, hpred, hrow]
    · subst hrleq
      have hpred : (extract_column_from_table_cell c.page c.off widx
          == some (some wval)) = false := by
        rw [hexw]
        simp only [beq_eq_false_iff_ne, ne_eq, Option.some_inj]
        exact hne
      rw [List.flatten_cons, ih rls2 hrls2]
      simp [List.filter_cons, hpred]

/-- Under unique rowids, `find?` by a member cell's rowid returns that
cell. -/
theorem find_cell_of_nodup :
    ∀ (cells : List TableCell), (cells.map TableCell.rowid).Nodup →
      ∀ c ∈ cells, cells.find? (fun x => x.rowid == c.rowid) = some c := by
  intro cells
  induction cells with
  | nil => intro _ c hc; simp at hc
  | cons d cells ih =>
    intro hnd c hc
    rw [List.map_cons, List.nodup_cons] at hnd
    obtain ⟨hdnotin, hnd2⟩ := hnd
    rcases List.mem_cons.1 hc with rfl | hmem
    · exact List.find?_cons_of_pos _ (by simp)
    · have hne : d.rowid ≠ c.rowid := by
        intro he
        exact hdnotin (he ▸ List.mem_map_of_mem TableCell.rowid hmem)
      rw [List.find?_cons_of_neg _ (by simp [hne])]
      exact ih hnd2 c hmem

/-- The row the index-accelerated plan fetches for candidate rowid `rid`:
the projection of the unique cell carrying `rid`. -/
def fetchRow (cells : List TableCell) (idxs : List Nat) (rid : Nat) : List (List Nat) :=
  match cells.find? (fun x => x.rowid == rid) with
  | some c => (projectCell c.page c.off idxs).getD []
  | none => []

/-- C2: refinement equivalence of the two WHERE plans.  Hypotheses:
the walker reads the table tree (`hwalk`), rowids are unique (spec §3
invariant 3), the full-scan Filter-projector succeeds, the index probe
succeeds, and — the semantic content of `CREATE INDEX ON T(col)` — the
multiset of rowids the probe returns equals the multiset of rowids of the
table cells whose where-column equals the target (spec §4.8: "the testable
contract is the set of rowids returned").  Conclusion: the
index-accelerated plan succeeds and returns the same rows as the full
scan, as a multiset (`List.Perm`). -/
theorem where_plans_equivalent (db : Db) (fuel troot iroot widx : Nat)
    (idxs wval : List Nat) (cells : List TableCell) (rids : List Nat)
    (wrows : List (List (List Nat)))
    (hwalk : scan_table_btree_cells db fuel troot = some cells)
    (hnd : (cells.map TableCell.rowid).Nodup)
    (hws : scan_table_btree_where db fuel troot idxs widx wval = some wrows)
    (hidx : scan_index_btree_for_value db fuel iroot wval = some rids)
    (hsem : rids.Perm ((cells.filter (fun c =>
        extract_column_from_table_cell c.page c.off widx == some (some wval))).map
        TableCell.rowid)) :
    ∃ irows, index_plan_rows db fuel troot iroot idxs wval = some irows ∧
      irows.Perm wrows := by
  have hchar := where_of_cells db idxs widx wval fuel troot cells hwalk
  rw [hchar] at hws
  obtain ⟨rls, hrls, hwr⟩ : ∃ rls,
      mapOpt (fun c => whereCellRows c.page c.off idxs widx wval) cells = some rls ∧
      wrows = rls.flatten := by
    cases hm : mapOpt (fun c => whereCellRows c.page c.off idxs widx wval) cells with
    | none => rw [hm] at hws; exact Option.noConfusion hws
    | some rls =>
      rw [hm] at hws
      simp only [Option.some_bind, Option.some_inj] at hws
      exact ⟨rls, rfl, hws.symm⟩
  have hshape : wrows = (cells.filter (fun c =>
      extract_column_from_table_cell c.page c.off widx == some (some wval))).map
      (fun c => (projectCell c.page c.off idxs).getD []) :=
    hwr.trans (where_rows_shape idxs widx wval cells rls hrls)
  have hlookup : ∀ rid ∈ rids, scan_table_btree_for_rowid db fuel troot rid idxs
      = some (some (fetchRow cells idxs rid)) := by
    intro rid hrid
    have hmem : rid ∈ (cells.filter (fun c =>
        extract_column_from_table_cell c.page c.off widx == some (some wval))).map
        TableCell.rowid := hsem.mem_iff.1 hrid
    obtain ⟨c, hcmatched, hcrid⟩ := List.mem_map.1 hmem
    have hcmem : c ∈ cells := List.mem_of_mem_filter hcmatched
    have hfind : cells.find? (fun x => x.rowid == rid) = some c := by
      rw [← hcrid]
      exact find_cell_of_nodup cells hnd c hcmem
    have hmatch : (extract_column_from_table_cell c.page c.off widx
        == some (some wval)) = true := (List.mem_filter.1 hcmatched).2
    obtain ⟨rl, hrl⟩ := mapOpt_forall_inv _ cells rls hrls c hcmem
    obtain ⟨w, hexw, hcase⟩ := whereCellRows_inv _ _ _ _ _ _ hrl
    have hwv : w = some wval := by
      rw [hexw] at hmatch
      simpa using hmatch
    rcases hcase with ⟨row, _, hrow, _⟩ | ⟨hne, _⟩
    · rw [forRowid_of_cells db rid idxs fuel troot cells hwalk]
      simp only [findResult, hfind, hrow]
      simp [fetchRow, hfind, hrow]
    · exact absurd hwv hne
  refine ⟨rids.map (fetchRow cells idxs), ?_, ?_⟩
  · rw [index_plan_rows]
    simp only [hidx, Option.bind_eq_bind, Option.some_bind]
    rw [mapOpt_eq_map _ (fun rid => some (fetchRow cells idxs rid)) rids hlookup]
    simp only [Option.some_bind, Option.some_inj]
    exact reduceOption_map_some _ rids
  · rw [hshape]
    have hperm2 := hsem.map (fetchRow cells idxs)
    apply hperm2.trans
    rw [List.map_map]
    have hcong : ∀ c ∈ cells.filter (fun c =>
        extract_column_from_table_cell c.page c.off widx == some (some wval)),
        (fetchRow cells idxs ∘ TableCell.rowid) c
          = (projectCell c.page c.off idxs).getD [] := by
      intro c hcf
      have hcmem : c ∈ cells := List.mem_of_mem_filter hcf
      show fetchRow cells idxs c.rowid = _
      rw [fetchRow, find_cell_of_nodup cells hnd c hcmem]
    rw [List.map_congr_left hcong]

/-- C2 witness: on the test database, the full scan for `col1 = "A"` and
the index-accelerated plan through the index at page 3 both return exactly
the single row of rowid 1. -/
theorem where_plans_equivalent_witness :
    ∃ irows, index_plan_rows testDb 1 2 3 [0, 1] [65] = some irows ∧
      irows.Perm [[[49], [65]]] :=
  where_plans_equivalent testDb 1 2 3 1 [0, 1] [65] testCells [1] [[[49], [65]]]
    (by decide) (by decide) (by decide) (by decide) (by decide)

end RQLite
